import Mathlib

/-!
Verification of the interval-tree calendar layout engine (`src/fb.js`).

The development shallowly embeds the JavaScript source:

* `FB.data.Node` / `FB.data.Tree` (an augmented red-black interval tree with
  parent pointers) becomes the inductive `RBT`.  The imperative insert fix-up
  walks parent pointers, so the position of the "current node" is represented
  by a zipper: a focused subtree plus a list of `Frame`s recording, for each
  ancestor, its color, data, cached max, the sibling subtree and on which side
  the focus hangs.
* JavaScript numbers holding times are modelled as `Int` (all arithmetic on
  them in the source is integral); the pixel geometry of the layout uses `ℚ`
  because `Calendar._renderEvents` divides the container width by the number
  of columns.
* Operations that throw in JavaScript (`searchInterval` on an empty tree
  dereferences `null`, `render` throws "No events set", `_rotate` throws
  "Child is null") are modelled with `Option`, `none` marking the thrown
  exception.
-/

namespace FB

/-- Node.RED (the JS constant is the boolean `true`). -/
def RED : Bool := true

/-- Node.BLACK (the JS constant is the boolean `false`). -/
def BLACK : Bool := false

/-- A child direction; the JS encodes LEFT as 0 and RIGHT as 1 and
`Node.getChild(direction)` selects `_right` exactly when the value is truthy. -/
inductive Dir where
  | left
  | right
deriving DecidableEq

/-- The opposite direction (`otherDirection` in `Tree.prototype._rotate`). -/
def Dir.flip : Dir → Dir
  | .left => .right
  | .right => .left

/-- The data stored in a node: the interval interface `id` / `start` / `end`
of `FB.ui.calendar.Event` (the field `end` is a Lean keyword, so it is named
`stop` here). -/
structure Iv where
  id : Int
  start : Int
  stop : Int
deriving DecidableEq

/-- `Event.comparator`: returns `0` (descend LEFT) when the first start time is
less than the second, else `1` (descend RIGHT).  Ties therefore go RIGHT. -/
def comparator (a b : Iv) : Dir :=
  if a.start < b.start then .left else .right

/-- `Event.isColliding`: closed-interval overlap,
`event1.start <= event2.end && event1.end >= event2.start`. -/
def isColliding (a b : Iv) : Bool :=
  decide (a.start ≤ b.stop) && decide (a.stop ≥ b.start)

/-- A tree of `FB.data.Node`s: color (`true` = RED), left child, data, the
cached `_max` field, right child.  `nil` is the absent child (`null`). -/
inductive RBT where
  | nil
  | node (c : Bool) (l : RBT) (v : Iv) (m : Int) (r : RBT)
deriving DecidableEq

/-- The cached maximum read through a possibly absent node:
`child != null ? child.getMax() : 0` (the pattern used by `Tree._getMax`). -/
def mOf : RBT → Int
  | .nil => 0
  | .node _ _ _ m _ => m

/-- Color of a possibly absent node; `null` counts as BLACK. -/
def colorOf : RBT → Bool
  | .nil => false
  | .node c _ _ _ _ => c

/-- `node.isRed()` through a possibly absent reference
(`uncle && uncle.isRed()`). -/
def isRedT : RBT → Bool
  | .node c _ _ _ _ => c
  | .nil => false

/-- `setColor(Node.BLACK)` on the root of a subtree; on the whole tree this is
the final `this._root.setColor(Node.BLACK)` of `insert`. -/
def blacken : RBT → RBT
  | .nil => .nil
  | .node _ l v m r => .node false l v m r

/-- In-order data sequence of a subtree (the mathematical yardstick; the
source's `getOrderedData` walks `minimum`/`successor` and is modelled
separately below). -/
def inOrder : RBT → List Iv
  | .nil => []
  | .node _ l v _ r => inOrder l ++ v :: inOrder r

/-- Number of nodes (the `_size` counter equals this after every insert). -/
def size : RBT → Nat
  | .nil => 0
  | .node _ l _ _ r => size l + 1 + size r

/-- The `end` values stored in a subtree, in order. -/
def ends : RBT → List Int
  | .nil => []
  | .node _ l v _ r => ends l ++ v.stop :: ends r

/-- One step of the parent-pointer zipper: the ancestor's color, data, cached
max, the child on the other side, and on which side the focus hangs. -/
structure Frame where
  c : Bool
  v : Iv
  m : Int
  sib : RBT
  d : Dir
deriving DecidableEq

/-- Rebuild the parent node from the focus and its frame. -/
def plugF (t : RBT) (f : Frame) : RBT :=
  match f.d with
  | .left => .node f.c t f.v f.m f.sib
  | .right => .node f.c f.sib f.v f.m t

/-- Rebuild the whole tree from a focus and its ancestor path (nearest
ancestor first). -/
def plug (t : RBT) : List Frame → RBT
  | [] => t
  | f :: p => plug (plugF t f) p

/-- The binary-search descent of `Tree.prototype._insertNode`: at each visited
node move to the child selected by `comparator(new, visited)`, recording the
frame.  Returns the ancestor path of the `null` position that receives the new
node (nearest ancestor first). -/
def descend (x : Iv) : RBT → List Frame → List Frame
  | .nil, acc => acc
  | .node c l v m r, acc =>
    match comparator x v with
    | .left => descend x l (⟨c, v, m, r, .left⟩ :: acc)
    | .right => descend x r (⟨c, v, m, l, .right⟩ :: acc)

/-- The freshly allocated node: RED, no children, and its `_max` set by
`node.setMax(this._getMax(node))` right after `_insertNode`, which on a leaf
computes `Math.max(end, Math.max(0, 0))`. -/
def newLeaf (x : Iv) : RBT :=
  .node RED .nil x (max x.stop (max 0 0)) .nil

/-- Case 1 of `Tree.prototype._checkViolation` (uncle exists and is RED):
recolor the parent and the uncle BLACK and the grandfather RED, and continue
from the grandfather.  No `_max` field is touched.  `f` is the parent frame,
`g` the grandfather frame (so the uncle is `g.sib`); the result is the
grandfather node, the new current node of the fix-up loop. -/
def case1 (t : RBT) (f g : Frame) : RBT :=
  plugF (plugF t ⟨BLACK, f.v, f.m, f.sib, f.d⟩) ⟨RED, g.v, g.m, blacken g.sib, g.d⟩

/-- The rotation cases of `Tree.prototype._checkViolation` (uncle absent or
BLACK).  `f` is the parent frame, `g` the grandfather frame; the JS `direction`
equals the flip of `g.d` (the side of the uncle).  When the current node is on
the inner side (`f.d = g.d.flip`) the parent is rotated first; then the parent
(respectively the risen node) is recolored BLACK, the grandfather RED, and the
grandfather is rotated.  Every `_rotate` recomputes `_max` for the risen node
first and the sunk node second (`child.setMax(_getMax(child))` before
`node.setMax(_getMax(node))`), so the risen node's recomputation still reads
the sunk node's stale cached `_max` — the formulas below reproduce that order
exactly (`g.m` and `f.m` are the caches stored before the rotation).  In the
inner cases the current node must be a real node to be rotated up; on `nil`
the JS `_rotate` would throw "Child is null", modelled as `none` (the balance
proof shows this branch is unreachable from trees built by inserts).  The
intermediate `_max` written to the risen child by the first rotation is
overwritten unread by the second rotation and is therefore not materialised. -/
def case23 (t : RBT) (f g : Frame) : Option RBT :=
  match g.d, f.d with
  | .left, .left =>
    some (.node BLACK t f.v (max f.v.stop (max (mOf t) g.m))
      (.node RED f.sib g.v (max g.v.stop (max (mOf f.sib) (mOf g.sib))) g.sib))
  | .left, .right =>
    match t with
    | .nil => none
    | .node _ tl tv _ tr =>
      some (.node BLACK (.node f.c f.sib f.v (max f.v.stop (max (mOf f.sib) (mOf tl))) tl)
        tv (max tv.stop (max (max f.v.stop (max (mOf f.sib) (mOf tl))) g.m))
        (.node RED tr g.v (max g.v.stop (max (mOf tr) (mOf g.sib))) g.sib))
  | .right, .right =>
    some (.node BLACK (.node RED g.sib g.v (max g.v.stop (max (mOf g.sib) (mOf f.sib))) f.sib)
      f.v (max f.v.stop (max g.m (mOf t))) t)
  | .right, .left =>
    match t with
    | .nil => none
    | .node _ tl tv _ tr =>
      some (.node BLACK (.node RED g.sib g.v (max g.v.stop (max (mOf g.sib) (mOf tl))) tl)
        tv (max tv.stop (max g.m (max f.v.stop (max (mOf tr) (mOf f.sib)))))
        (.node f.c tr f.v (max f.v.stop (max (mOf tr) (mOf f.sib))) f.sib))

/-- The fix-up loop of `Tree.prototype.insert`:
`while (node != root && node.getParent().isRed())` dispatch to
`_checkViolation`, then finally `this._root.setColor(Node.BLACK)`.  An empty
path means the current node is the root.  A RED parent that is itself the root
would make the JS dereference a `null` grandfather (`getGrandfather()` returns
`null` and `.getChild` throws), modelled as `none`; the balance proof shows
this cannot happen.  After a rotation case the new parent of the current node
is BLACK, so the loop exits and the root is blackened. -/
def fixup : RBT → List Frame → Option RBT
  | t, [] => some (blacken t)
  | t, f :: p =>
    if f.c = RED then
      match p with
      | [] => none
      | g :: p2 =>
        if isRedT g.sib then fixup (case1 t f g) p2
        else (case23 t f g).map (fun frag => blacken (plug frag p2))
    else some (blacken (plug t (f :: p)))

/-- `Tree.prototype.insert`: BST descent, attach a RED leaf, set its `_max`,
then run the fix-up.  Note that no `_max` of any ancestor of the new leaf is
recomputed — only the leaf itself and the nodes touched by rotations. -/
def insert (t : RBT) (x : Iv) : Option RBT :=
  fixup (newLeaf x) (descend x t [])

/-- Insert a list of events into an initially empty tree, left to right
(`Calendar.prototype.setEvents` does exactly this). -/
def build (evs : List Iv) : Option RBT :=
  evs.foldlM insert .nil

/-- The recursive body of `Tree.prototype.searchInterval`, which is only ever
invoked on non-`null` nodes (the recursive calls are guarded by
`child != null`).  Order: left results, then the node itself if colliding,
then right results. -/
def searchGo (q : Iv) : RBT → List Iv
  | .nil => []
  | .node _ l v _ r =>
    (if l ≠ .nil ∧ mOf l ≥ q.start then searchGo q l else []) ++
    (if isColliding v q then [v] else []) ++
    (if r ≠ .nil ∧ v.start ≤ q.stop then searchGo q r else [])

/-- Top-level `Tree.prototype.searchInterval(interval)`: starts at
`this._root`; on an empty tree the JS dereferences `null`
(`node.getChild(Node.LEFT)` throws), modelled as `none`. -/
def searchIntervalT (q : Iv) (t : RBT) : Option (List Iv) :=
  match t with
  | .nil => none
  | _ => some (searchGo q t)

/-- A node reference: the focused subtree plus the path to the root.  This is
how the model names the JS node objects reached through parent pointers. -/
abbrev Zip := RBT × List Frame

/-- `Tree.prototype.minimum` from a focus: follow LEFT children to the end.
On `null` (empty tree, no argument) the JS throws, hence `none`. -/
def minZip : RBT → List Frame → Option Zip
  | .nil, _ => none
  | .node c l v m r, p =>
    match l with
    | .nil => some (.node c l v m r, p)
    | _ => minZip l (⟨c, v, m, r, .left⟩ :: p)

/-- `Tree.prototype.maximum` from a focus: follow RIGHT children to the end. -/
def maxZip : RBT → List Frame → Option Zip
  | .nil, _ => none
  | .node c l v m r, p =>
    match r with
    | .nil => some (.node c l v m r, p)
    | _ => maxZip r (⟨c, v, m, l, .right⟩ :: p)

/-- The parent-climbing loop of `Tree.prototype.successor`:
`while (parent && node == parent.getChild(RIGHT)) climb; return parent`.
Returns `none` when the climb runs off the root (successor is `null`). -/
def climbR : RBT → List Frame → Option Zip
  | _, [] => none
  | t, f :: p =>
    match f.d with
    | .right => climbR (plugF t f) p
    | .left => some (plugF t f, p)

/-- The parent-climbing loop of `Tree.prototype.predecessor` (mirror). -/
def climbL : RBT → List Frame → Option Zip
  | _, [] => none
  | t, f :: p =>
    match f.d with
    | .left => climbL (plugF t f) p
    | .right => some (plugF t f, p)

/-- `Tree.prototype.successor`: minimum of the right child when present, else
climb parents while coming from the right. -/
def succZip : Zip → Option Zip
  | (.nil, _) => none
  | (.node c l v m r, p) =>
    match r with
    | .nil => climbR (.node c l v m r) p
    | _ => minZip r (⟨c, v, m, l, .right⟩ :: p)

/-- `Tree.prototype.predecessor` (mirror of `succZip`). -/
def predZip : Zip → Option Zip
  | (.nil, _) => none
  | (.node c l v m r, p) =>
    match l with
    | .nil => climbL (.node c l v m r) p
    | _ => maxZip l (⟨c, v, m, r, .left⟩ :: p)

/-- The collection loop of `getOrderedData`: `while (node != null) { push
node.data; node = successor(node) }`.  The JS loop is unbounded; the model
carries fuel and `walk_seq` below shows that `size t` steps emit the full
sequence. -/
def walkS : Nat → Zip → List Iv
  | 0, _ => []
  | _ + 1, (.nil, _) => []
  | n + 1, (.node c l v m r, p) =>
    v :: (match succZip (.node c l v m r, p) with
          | none => []
          | some z => walkS n z)

/-- Same loop collecting node references instead of data (`getOrdered`). -/
def walkN : Nat → Zip → List Zip
  | 0, _ => []
  | _ + 1, (.nil, _) => []
  | n + 1, (.node c l v m r, p) =>
    (.node c l v m r, p) :: (match succZip (.node c l v m r, p) with
                             | none => []
                             | some z => walkN n z)

/-- The reverse collection loop of `getReverseOrderedData`: `maximum` then
repeated `predecessor`. -/
def walkR : Nat → Zip → List Iv
  | 0, _ => []
  | _ + 1, (.nil, _) => []
  | n + 1, (.node c l v m r, p) =>
    v :: (match predZip (.node c l v m r, p) with
          | none => []
          | some z => walkR n z)

/-- `Tree.prototype.getOrderedData(node)`: the body first defaults the
argument to the root and then unconditionally overwrites it with
`this.minimum()` (no argument, i.e. from the root), so the supplied start node
is dead.  On an empty tree `minimum` dereferences `null`: `none`. -/
def getOrderedDataFrom (t : RBT) (node : Option Zip) : Option (List Iv) :=
  let _deadStore := node.getD (t, [])
  match minZip t [] with
  | none => none
  | some z => some (walkS (size t) z)

/-- `Tree.prototype.getOrderedData()` with no argument. -/
def getOrderedData (t : RBT) : Option (List Iv) :=
  getOrderedDataFrom t none

/-- `Tree.prototype.getOrdered(node)`: same dead-store pattern, collecting
node references. -/
def getOrderedFrom (t : RBT) (node : Option Zip) : Option (List Zip) :=
  let _deadStore := node.getD (t, [])
  match minZip t [] with
  | none => none
  | some z => some (walkN (size t) z)

/-- `Tree.prototype.getReverseOrderedData(node)`: same dead-store pattern,
the start node is overwritten by `this.maximum()` from the root. -/
def getReverseOrderedDataFrom (t : RBT) (node : Option Zip) : Option (List Iv) :=
  let _deadStore := node.getD (t, [])
  match maxZip t [] with
  | none => none
  | some z => some (walkR (size t) z)

/-- `Tree.prototype.minimum()` called on the whole tree, returning the data
of the found node (`none` models the `null` dereference on an empty tree). -/
def minimumData (t : RBT) : Option Iv :=
  (minZip t []).map (fun z => match z.1 with
    | .node _ _ v _ _ => v
    | .nil => ⟨0, 0, 0⟩)

/-! ### The calendar layout engine -/

/-- A bin of `Calendar.prototype._addToBin`: a running `max` (the end time of
the last placed event) and the events placed so far. -/
structure Bin where
  max : Int
  events : List Iv
deriving DecidableEq

/-- `Calendar.prototype._addToBin`: place the event into the first bin whose
`max` is at most the event's start (`event.start >= bin.max`), updating that
bin's `max` to the event's end; if no bin qualifies, append a new bin. -/
def addToBin (e : Iv) : List Bin → List Bin
  | [] => [⟨e.stop, [e]⟩]
  | b :: bs =>
    if e.start ≥ b.max then ⟨e.stop, b.events ++ [e]⟩ :: bs
    else b :: addToBin e bs

/-- The `for` loop of `Calendar.prototype._render` with `binsByRef` supplied:
all loop iterations and nested calls share (and mutate) one bins list.  The
one-level-deeper recursive `_render` call is abstracted as `deep` (it is tied
to the unrolled recursion by `renderRec` below).  The result is the list of
bins snapshots at each `_renderEvents` call (the emission batches, in html
order), the rendered-id set, and the final bins. -/
def renderLoop (t : RBT)
    (deep : List Iv → List Int → List Bin →
      Option (List (List Bin) × List Int × List Bin)) :
    List Iv → List Int → List Bin →
    Option (List (List Bin) × List Int × List Bin)
  | [], rend, bins => some ([], rend, bins)
  | e :: rest, rend, bins =>
    if e.id ∈ rend then renderLoop t deep rest rend bins
    else
      match deep (searchGo e t) (e.id :: rend) (addToBin e bins) with
      | none => none
      | some (bs, rend2, bins2) =>
        match renderLoop t deep rest rend2 bins2 with
        | none => none
        | some (bs2, rend3, bins3) => some (bs ++ [bins2] ++ bs2, rend3, bins3)

/-- The recursive branch of `Calendar.prototype._render`, unrolled on the
recursion depth `fuel`: the nested call of each loop iteration runs one level
deeper.  Each nested call is preceded by marking a previously unrendered id,
so depth `number of events + 1` always suffices; exhausting the fuel (`none`)
would model a runaway recursion and never happens at that depth. -/
def renderRec (t : RBT) : Nat → List Iv → List Int → List Bin →
    Option (List (List Bin) × List Int × List Bin)
  | 0 => renderLoop t (fun _ _ _ => none)
  | fuel1 + 1 => renderLoop t (renderRec t fuel1)

/-- The `for` loop of the top-level `Calendar.prototype._render` call
(`binsByRef` undefined): every loop iteration starts from a fresh empty bins
list, which is then shared with the nested recursive call for that
iteration's collision cluster. -/
def renderTopGo (t : RBT)
    (deep : List Iv → List Int → List Bin →
      Option (List (List Bin) × List Int × List Bin)) :
    List Iv → List Int → Option (List (List Bin) × List Int)
  | [], rend => some ([], rend)
  | e :: rest, rend =>
    if e.id ∈ rend then renderTopGo t deep rest rend
    else
      match deep (searchGo e t) (e.id :: rend) (addToBin e []) with
      | none => none
      | some (bs, rend2, bins2) =>
        match renderTopGo t deep rest rend2 with
        | none => none
        | some (bs2, rend3) => some (bs ++ [bins2] ++ bs2, rend3)

/-- The top-level `Calendar.prototype._render` call at recursion depth
budget `fuel`. -/
def renderTop (t : RBT) (fuel : Nat) : List Iv → List Int →
    Option (List (List Bin) × List Int) :=
  match fuel with
  | 0 => renderTopGo t (fun _ _ _ => none)
  | fuel1 + 1 => renderTopGo t (renderRec t fuel1)

/-- The full layout pipeline of `Calendar.prototype.layOutDay` as far as the
core goes: build the tree from the raw events (`setEvents`), read the
ascending-start sequence (`this._events = tree.getOrderedData()`, which
throws on an empty tree), then run `_render` over it with an empty
rendered-set.  The result is the sequence of emission batches. -/
def layOutD (evs : List Iv) : Option (List (List Bin)) :=
  match build evs with
  | none => none
  | some t =>
    match getOrderedData t with
    | none => none
    | some ordered =>
      match renderTop t (evs.length + 1) ordered [] with
      | none => none
      | some (bs, _) => some bs

/-- The geometry assigned by `Event.prototype.render(width, level)`.
`Browser.BORDER_BOX` is modelled as `true` (any non-IE6/7 environment), which
makes `_getElementWidth` and `_getElementHeight` the identity, as the spec's
core boundary assumes.  Note the fixed `+ 10` in `left`. -/
structure Geo where
  top : ℚ
  left : ℚ
  width : ℚ
  height : ℚ
deriving DecidableEq

/-- `Event.prototype.render`: `width` as computed by the caller, `height` the
event duration, `left = level * width + 10`, `top = start`. -/
def eventRender (e : Iv) (width : ℚ) (level : ℕ) : Geo :=
  { top := (e.start : ℚ)
    left := (level : ℚ) * width + 10
    width := width
    height := ((e.stop - e.start : ℤ) : ℚ) }

/-- One positioned record emitted by `_renderEvents`: the event, its column
index (`level`), the column count at emission time, and the geometry. -/
structure Emit where
  ev : Iv
  level : ℕ
  count : ℕ
  geo : Geo
deriving DecidableEq

/-- `Calendar.prototype._renderEvents(bins)`: for every bin (by position) and
every event in it, emit a record with
`width = this._options.width / bins.length`. -/
def renderEventsW (w : ℚ) (bins : List Bin) : List Emit :=
  (bins.enum.map (fun lv =>
    lv.2.events.map (fun e =>
      ⟨e, lv.1, bins.length, eventRender e (w / (bins.length : ℚ)) lv.1⟩))).flatten

/-- All positioned records of a layout run, batch by batch, for a calendar of
total width `w` (the default options use 600). -/
def layOutEmits (w : ℚ) (evs : List Iv) : Option (List Emit) :=
  (layOutD evs).map (fun bs => (bs.map (renderEventsW w)).flatten)

/-- The visible state of a `Calendar` instance as far as the core goes. -/
structure CalSt where
  events : Option (List Iv)
  tree : Option RBT
  renderedEvents : List Int
deriving DecidableEq

/-- `Calendar.prototype.render`: `if (this._events === null) throw new
Error("No events set")` — the check precedes `this.clear()`, so a failing
render leaves the state untouched.  Otherwise clear and run `_render`. -/
def calRender (s : CalSt) : Option (List (List Bin)) × CalSt :=
  match s.events with
  | none => (none, s)
  | some evs =>
    match s.tree with
    | none => (none, { s with renderedEvents := [] })
    | some t =>
      match renderTop t (evs.length + 1) evs [] with
      | none => (none, { s with renderedEvents := [] })
      | some (bs, rend) => (some bs, { s with renderedEvents := rend })

/-- `Tree.prototype.insert` together with the value the JS call evaluates to:
the function body has no `return` statement, so the call yields `undefined`
(the second component is `none`); the mutated tree is the first component.
The node-returning behavior belongs to the internal `_insertNode`. -/
def insertCall (t : RBT) (x : Iv) : Option (RBT × Option Iv) :=
  (insert t x).map (fun t1 => (t1, none))

/-! ### Specification-side predicates -/

/-- No RED node has a RED child (red-black invariant 2; `null` is BLACK). -/
def noRedRed : RBT → Prop
  | .nil => True
  | .node c l _ _ r =>
    noRedRed l ∧ noRedRed r ∧ (c = true → colorOf l = false ∧ colorOf r = false)

/-- The number of BLACK nodes on each downward path from the root to an
absent-child position, one list entry per such position. -/
def blackCounts : RBT → List Nat
  | .nil => [0]
  | .node c l _ _ r =>
    (blackCounts l ++ blackCounts r).map (fun k => (if c = false then 1 else 0) + k)

/-- The augmentation invariant at every node: the cached `_max` equals the
maximum `end` value over the node's own interval and all intervals in its
subtree (decidably, as membership plus upper bound over the subtree's ends). -/
def maxOkB : RBT → Bool
  | .nil => true
  | .node _ l v m r =>
    maxOkB l && maxOkB r &&
      (decide (m ∈ v.stop :: (ends l ++ ends r)) &&
       decide (∀ x ∈ v.stop :: (ends l ++ ends r), x ≤ m))

/-- The red-black balance invariant, in the standard inductive form: `Bal t c
n` says the root of `t` has color `c` (`true` = RED), every path from `t` to
an absent child crosses `n` BLACK nodes, and no RED node has a RED child. -/
inductive Bal : RBT → Bool → Nat → Prop where
  | nil : Bal .nil false 0
  | red {l r : RBT} {v : Iv} {m : Int} {n : Nat} :
      Bal l false n → Bal r false n → Bal (.node true l v m r) true n
  | black {l r : RBT} {v : Iv} {m : Int} {c₁ c₂ : Bool} {n : Nat} :
      Bal l c₁ n → Bal r c₂ n → Bal (.node false l v m r) false (n + 1)

/-- Balance invariant for an ancestor path: `PBal c₀ n₀ p c n` says that
plugging a `(c, n)`-balanced tree into the hole described by `p` yields a
`(c₀, n₀)`-balanced tree.  A RED frame demands a BLACK hole; a BLACK frame
accepts a hole of any color (the conclusion's `c₁` is free, as in the
red-black path invariant of the Batteries `RBNode` development). -/
inductive PBal (c₀ : Bool) (n₀ : Nat) : List Frame → Bool → Nat → Prop where
  | root : PBal c₀ n₀ [] c₀ n₀
  | redF {sib : RBT} {v : Iv} {m : Int} {d : Dir} {p : List Frame} {n : Nat} :
      Bal sib false n → PBal c₀ n₀ p true n →
      PBal c₀ n₀ (⟨true, v, m, sib, d⟩ :: p) false n
  | blackF {sib : RBT} {v : Iv} {m : Int} {d : Dir} {p : List Frame}
      {c₁ c₂ : Bool} {n : Nat} :
      Bal sib c₂ n → PBal c₀ n₀ p false (n + 1) →
      PBal c₀ n₀ (⟨false, v, m, sib, d⟩ :: p) c₁ n

/-- In-order elements sitting after the hole of a path. -/
def upA : List Frame → List Iv
  | [] => []
  | f :: p =>
    match f.d with
    | .left => f.v :: inOrder f.sib ++ upA p
    | .right => upA p

/-- In-order elements sitting before the hole of a path. -/
def upB : List Frame → List Iv
  | [] => []
  | f :: p =>
    match f.d with
    | .left => upB p
    | .right => upB p ++ (inOrder f.sib ++ [f.v])

/-- The data sequence that the `minimum`/`successor` walk still has to emit
from a given node reference: the focus, then its right subtree, then every
ancestor (and that ancestor's right part) the focus hangs left of. -/
def seqFrom : Zip → List Iv
  | (.nil, _) => []
  | (.node _ _ v _ r, p) => v :: (inOrder r ++ upA p)

/-- Plain binary-search-tree leaf insertion (the same descent as
`_insertNode`, expressed recursively); `descend`+`plug` equals this. -/
def insTree (x : Iv) : RBT → RBT
  | .nil => newLeaf x
  | .node c l v m r =>
    match comparator x v with
    | .left => .node c (insTree x l) v m r
    | .right => .node c l v m (insTree x r)

/-- Insertion into a list after every element whose start is at most the new
element's start — the list-level effect of the ties-go-RIGHT descent. -/
def linsert (x : Iv) : List Iv → List Iv
  | [] => [x]
  | y :: l => if y.start ≤ x.start then y :: linsert x l else x :: y :: l

/-- Non-decreasing by start time. -/
def leStart (a b : Iv) : Prop := a.start ≤ b.start

/-- `a` ends no later than `b` starts: the intervals' interiors are disjoint
(touching endpoints allowed — which the closed predicate §4.6 still counts
as overlapping). -/
def endsBefore (a b : Iv) : Prop := a.stop ≤ b.start

/-- A well-formed bin: its events are pairwise interior-disjoint in list
order, and every stored end time is at most the running `max`. -/
def BinOK (b : Bin) : Prop :=
  b.events.Pairwise endsBefore ∧ ∀ e ∈ b.events, e.stop ≤ b.max

/-- All bins of a bins list are well-formed and draw their events from
`dom`. -/
def BinsOK (dom : List Iv) (bs : List Bin) : Prop :=
  ∀ b ∈ bs, BinOK b ∧ ∀ e ∈ b.events, e ∈ dom

/-- A well-formed interval: `start < end` (§3; unvalidated by the code). -/
def wfIv (e : Iv) : Prop := e.start < e.stop

/-- Brute-force overlap scan over the raw event list with the §4.6
predicate. -/
def bruteOverlaps (evs : List Iv) (q : Iv) : List Iv :=
  evs.filter (fun e => isColliding e q)

/-- The `columnIndex` assignments read off one emission batch: `(e, i)` says
event `e` is emitted from bin `i` of this batch (the geometry-free core of
`renderEventsW`; see `evLevels_eq_emits`). -/
def evLevels (batch : List Bin) : List (Iv × Nat) :=
  (batch.enum.map (fun lv => lv.2.events.map (fun e => (e, lv.1)))).flatten

/-- The column-validity property as the spec claims it (C4): within one
layout run, records for distinct events sharing a `columnIndex` never
overlap under §4.6, and §4.6-overlapping events always receive different
`columnIndex` values. -/
def claimColumnValidity (evs : List Iv) : Prop :=
  ∀ r, layOutD evs = some r → ∀ batch ∈ r,
    ∀ p1 ∈ evLevels batch, ∀ p2 ∈ evLevels batch, p1.1 ≠ p2.1 →
      (p1.2 = p2.2 → isColliding p1.1 p2.1 = false) ∧
      (isColliding p1.1 p2.1 = true → p1.2 ≠ p2.2)

/-- The left-position formula as the spec claims it (C6):
`left = columnIndex * width`. -/
def claimLeftFormula (w : ℚ) (evs : List Iv) : Prop :=
  ∀ L, layOutEmits w evs = some L →
    ∀ em ∈ L, em.geo.left = (em.level : ℚ) * em.geo.width

/-- The insert-returns-the-node property as the spec claims it (C7): the value
a `Tree.insert` call evaluates to is the newly inserted node (here identified
by its stored interval). -/
def claimInsertReturnsNode (t : RBT) (x : Iv) : Prop :=
  (insertCall t x).map Prod.snd = some (some x)


/-! ### Theorems: the red-black invariant (claim C1) -/

theorem Bal.colorOf_eq {t : RBT} {c : Bool} {n : Nat} (h : Bal t c n) :
    colorOf t = c := by
  cases h <;> rfl

theorem Bal.toNoRedRed {t : RBT} {c : Bool} {n : Nat} (h : Bal t c n) :
    noRedRed t := by
  induction h with
  | nil => trivial
  | red hl hr ihl ihr =>
    exact ⟨ihl, ihr, fun _ => ⟨hl.colorOf_eq, hr.colorOf_eq⟩⟩
  | black hl hr ihl ihr =>
    exact ⟨ihl, ihr, fun h => by cases h⟩

theorem Bal.blackCounts_eq {t : RBT} {c : Bool} {n : Nat} (h : Bal t c n) :
    ∀ k ∈ blackCounts t, k = n := by
  induction h with
  | nil => intro k hk; simpa [blackCounts] using hk
  | red hl hr ihl ihr =>
    intro k hk
    simp only [blackCounts, List.mem_map, List.mem_append] at hk
    obtain ⟨j, hj | hj, rfl⟩ := hk
    · simp [ihl j hj]
    · simp [ihr j hj]
  | black hl hr ihl ihr =>
    intro k hk
    simp only [blackCounts, List.mem_map, List.mem_append] at hk
    obtain ⟨j, hj | hj, rfl⟩ := hk
    · simp [ihl j hj, Nat.add_comm]
    · simp [ihr j hj, Nat.add_comm]

theorem PBal.plug {c₀ : Bool} {n₀ : Nat} {p : List Frame} {c : Bool} {n : Nat}
    (hp : PBal c₀ n₀ p c n) : ∀ {t : RBT}, Bal t c n → Bal (plug t p) c₀ n₀ := by
  induction hp with
  | root => intro t ht; exact ht
  | @redF sib v m d p n hsib _ ih =>
    intro t ht
    cases d with
    | left => exact ih (.red ht hsib)
    | right => exact ih (.red hsib ht)
  | @blackF sib v m d p c₁ c₂ n hsib _ ih =>
    intro t ht
    cases d with
    | left => exact ih (.black ht hsib)
    | right => exact ih (.black hsib ht)

theorem descend_pbal {c₀ : Bool} {n₀ : Nat} (x : Iv) :
    ∀ {t : RBT} {c : Bool} {n : Nat} {acc : List Frame},
      Bal t c n → PBal c₀ n₀ acc c n → PBal c₀ n₀ (descend x t acc) false 0 := by
  intro t
  induction t with
  | nil =>
    intro c n acc ht hacc
    cases ht
    exact hacc
  | node c l v m r ihl ihr =>
    intro c' n acc ht hacc
    cases ht with
    | red hl hr =>
      unfold descend
      cases comparator x v with
      | left => exact ihl hl (.redF hr hacc)
      | right => exact ihr hr (.redF hl hacc)
    | black hl hr =>
      unfold descend
      cases comparator x v with
      | left => exact ihl hl (.blackF hr hacc)
      | right => exact ihr hr (.blackF hl hacc)

theorem Bal.blacken_red {t : RBT} {n : Nat} (h : Bal t true n) :
    Bal (blacken t) false (n + 1) := by
  cases h with
  | red hl hr => exact .black hl hr

theorem Bal.blacken_black {t : RBT} {n : Nat} (h : Bal t false n) :
    Bal (blacken t) false n := by
  cases h with
  | nil => exact .nil
  | black hl hr => exact .black hl hr

theorem fixup_bal {n₀ : Nat} :
    ∀ (p : List Frame) (t : RBT) (n : Nat),
      Bal t true n → PBal false n₀ p false n →
      ∃ t₁ n₁, fixup t p = some t₁ ∧ Bal t₁ false n₁
  | [], t, n, ht, hp => by
    cases hp
    exact ⟨blacken t, n₀ + 1, rfl, ht.blacken_red⟩
  | ⟨false, fv, fm, fsib, fd⟩ :: p2, t, n, ht, hp => by
    cases hp with
    | blackF hsib hp2 =>
      refine ⟨blacken (plug t (⟨false, fv, fm, fsib, fd⟩ :: p2)), n₀, ?_,
        ((PBal.blackF hsib hp2).plug ht).blacken_black⟩
      unfold fixup
      simp [RED, BLACK]
  | ⟨true, fv, fm, fsib, fd⟩ :: ([] : List Frame), t, n, ht, hp => by
    cases hp with
    | redF hsib hp1 => cases hp1
  | ⟨true, fv, fm, fsib, fd⟩ :: ⟨gc, gv, gm, gsib, gd⟩ :: p2, t, n, ht, hp => by
    cases hp with
    | redF hsibf hp1 =>
    cases hp1 with
    | blackF hsibg hp2 =>
      by_cases hu : isRedT gsib = true
      · -- case 1: the uncle is red
        have hGbal : Bal (case1 t ⟨true, fv, fm, fsib, fd⟩ ⟨false, gv, gm, gsib, gd⟩) true (n + 1) := by
          have hP : ∀ d : Dir, Bal (plugF t ⟨BLACK, fv, fm, fsib, d⟩) false (n + 1) := by
            intro d
            cases d with
            | left => exact .black ht hsibf
            | right => exact .black hsibf ht
          cases gsib with
          | nil => simp [isRedT] at hu
          | node uc ul uv um ur =>
            cases hsibg with
            | black h1 h2 => simp [isRedT] at hu
            | red h1 h2 =>
              have hU : Bal (blacken (RBT.node true ul uv um ur)) false (n + 1) :=
                Bal.blacken_red (Bal.red h1 h2)
              cases gd with
              | left => exact .red (hP fd) hU
              | right => exact .red hU (hP fd)
        obtain ⟨t₁, n₁, hfix, hbal⟩ := fixup_bal p2 _ _ hGbal hp2
        refine ⟨t₁, n₁, ?_, hbal⟩
        rw [fixup.eq_def]
        simpa [RED, hu] using hfix
      · -- cases 2/3: the uncle is absent or black
        have hub : Bal gsib false n := by
          cases hsibg with
          | nil => exact .nil
          | red h1 h2 => simp [isRedT] at hu
          | black h1 h2 => exact .black h1 h2
        cases ht with
        | @red tl tr tv tm _ htl htr =>
          have hfrag : ∃ frag,
              case23 (.node true tl tv tm tr) ⟨true, fv, fm, fsib, fd⟩ ⟨false, gv, gm, gsib, gd⟩
                = some frag ∧ Bal frag false (n + 1) := by
            cases gd with
            | left =>
              cases fd with
              | left =>
                exact ⟨_, rfl, .black (.red htl htr) (.red hsibf hub)⟩
              | right =>
                exact ⟨_, rfl, .black (.red hsibf htl) (.red htr hub)⟩
            | right =>
              cases fd with
              | right =>
                exact ⟨_, rfl, .black (.red hub hsibf) (.red htl htr)⟩
              | left =>
                exact ⟨_, rfl, .black (.red hub htl) (.red htr hsibf)⟩
          obtain ⟨frag, hfragEq, hfragBal⟩ := hfrag
          refine ⟨blacken (plug frag p2), n₀, ?_, (hp2.plug hfragBal).blacken_black⟩
          rw [fixup.eq_def]
          simp [RED, hu, hfragEq]

theorem insert_bal {t : RBT} {n : Nat} (x : Iv) (ht : Bal t false n) :
    ∃ t₁ n₁, insert t x = some t₁ ∧ Bal t₁ false n₁ := by
  have hpath : PBal false n (descend x t []) false 0 :=
    descend_pbal x ht .root
  have hleaf : Bal (newLeaf x) true 0 := .red .nil .nil
  exact fixup_bal (descend x t []) _ _ hleaf hpath

/-! ### Theorems: in-order contents through insertion -/

theorem fixup_nil (t : RBT) : fixup t [] = some (blacken t) := by
  rw [fixup.eq_def]

theorem fixup_black (t : RBT) (fv : Iv) (fm : Int) (fsib : RBT) (fd : Dir)
    (p2 : List Frame) :
    fixup t (⟨false, fv, fm, fsib, fd⟩ :: p2)
      = some (blacken (plug t (⟨false, fv, fm, fsib, fd⟩ :: p2))) := by
  rw [fixup.eq_def]
  simp [RED]

theorem fixup_red_nil (t : RBT) (fv : Iv) (fm : Int) (fsib : RBT) (fd : Dir) :
    fixup t [⟨true, fv, fm, fsib, fd⟩] = none := by
  rw [fixup.eq_def]
  simp [RED]

theorem fixup_red_cons (t : RBT) (fv : Iv) (fm : Int) (fsib : RBT) (fd : Dir)
    (g : Frame) (p2 : List Frame) :
    fixup t (⟨true, fv, fm, fsib, fd⟩ :: g :: p2) =
      if isRedT g.sib = true then fixup (case1 t ⟨true, fv, fm, fsib, fd⟩ g) p2
      else (case23 t ⟨true, fv, fm, fsib, fd⟩ g).map (fun frag => blacken (plug frag p2)) := by
  rw [fixup.eq_def]
  simp [RED]

theorem inOrder_blacken (t : RBT) : inOrder (blacken t) = inOrder t := by
  cases t <;> rfl

theorem inOrder_plugF (t : RBT) (c : Bool) (v : Iv) (m : Int) (sib : RBT) (d : Dir) :
    inOrder (plugF t ⟨c, v, m, sib, d⟩) =
      (match d with
       | .left => inOrder t ++ v :: inOrder sib
       | .right => inOrder sib ++ v :: inOrder t) := by
  cases d <;> rfl

theorem inOrder_plug (p : List Frame) :
    ∀ t : RBT, inOrder (plug t p) = upB p ++ inOrder t ++ upA p := by
  induction p with
  | nil => intro t; simp [plug, upB, upA]
  | cons f p ih =>
    intro t
    obtain ⟨c, v, m, sib, d⟩ := f
    cases d with
    | left => simp [plug, ih, plugF, upB, upA, inOrder, List.append_assoc]
    | right => simp [plug, ih, plugF, upB, upA, inOrder, List.append_assoc]

theorem inOrder_case1 (t : RBT) (f g : Frame) :
    inOrder (case1 t f g) = inOrder (plugF (plugF t f) g) := by
  obtain ⟨fc, fv, fm, fsib, fd⟩ := f
  obtain ⟨gc, gv, gm, gsib, gd⟩ := g
  cases fd <;> cases gd <;>
    simp [case1, plugF, inOrder_blacken, inOrder]

theorem fixup_inOrder :
    ∀ (p : List Frame) (t t₁ : RBT), fixup t p = some t₁ →
      inOrder t₁ = inOrder (plug t p)
  | [], t, t₁, h => by
    rw [fixup_nil] at h
    cases h
    exact inOrder_blacken t
  | ⟨false, fv, fm, fsib, fd⟩ :: p2, t, t₁, h => by
    rw [fixup_black] at h
    cases h
    exact inOrder_blacken _
  | [⟨true, fv, fm, fsib, fd⟩], t, t₁, h => by
    rw [fixup_red_nil] at h
    cases h
  | ⟨true, fv, fm, fsib, fd⟩ :: g :: p2, t, t₁, h => by
    rw [fixup_red_cons] at h
    by_cases hu : isRedT g.sib = true
    · rw [if_pos hu] at h
      have ih := fixup_inOrder p2 _ t₁ h
      rw [ih]
      have hplug : plug t (⟨true, fv, fm, fsib, fd⟩ :: g :: p2)
          = plug (plugF (plugF t ⟨true, fv, fm, fsib, fd⟩) g) p2 := rfl
      rw [hplug, inOrder_plug, inOrder_plug, inOrder_case1]
    · rw [if_neg hu] at h
      obtain ⟨gc, gv, gm, gsib, gd⟩ := g
      have hplug : plug t (⟨true, fv, fm, fsib, fd⟩ :: ⟨gc, gv, gm, gsib, gd⟩ :: p2)
          = plug (plugF (plugF t ⟨true, fv, fm, fsib, fd⟩) ⟨gc, gv, gm, gsib, gd⟩) p2 := rfl
      rw [hplug]
      cases gd with
      | left =>
        cases fd with
        | left =>
          simp only [case23, Option.map_some] at h
          cases h
          rw [inOrder_blacken, inOrder_plug, inOrder_plug]
          simp [inOrder, plugF, List.append_assoc]
        | right =>
          cases t with
          | nil => simp [case23] at h
          | node tc tl tv tm tr =>
            simp only [case23, Option.map_some] at h
            cases h
            rw [inOrder_blacken, inOrder_plug, inOrder_plug]
            simp [inOrder, plugF, List.append_assoc]
      | right =>
        cases fd with
        | right =>
          simp only [case23, Option.map_some] at h
          cases h
          rw [inOrder_blacken, inOrder_plug, inOrder_plug]
          simp [inOrder, plugF, List.append_assoc]
        | left =>
          cases t with
          | nil => simp [case23] at h
          | node tc tl tv tm tr =>
            simp only [case23, Option.map_some] at h
            cases h
            rw [inOrder_blacken, inOrder_plug, inOrder_plug]
            simp [inOrder, plugF, List.append_assoc]

theorem descend_plug (x : Iv) :
    ∀ (t : RBT) (acc : List Frame),
      plug (newLeaf x) (descend x t acc) = plug (insTree x t) acc := by
  intro t
  induction t with
  | nil => intro acc; rfl
  | node c l v m r ihl ihr =>
    intro acc
    show plug (newLeaf x) (descend x (.node c l v m r) acc) = _
    rw [descend, insTree]
    cases comparator x v with
    | left => exact ihl _
    | right => exact ihr _

theorem linsert_append_gt (x v : Iv) (B : List Iv) (hv : ¬ v.start ≤ x.start) :
    ∀ A : List Iv, linsert x (A ++ v :: B) = linsert x A ++ v :: B := by
  intro A
  induction A with
  | nil => simp [linsert, hv]
  | cons a A ih =>
    by_cases ha : a.start ≤ x.start
    · simp [linsert, ha, ih]
    · simp [linsert, ha]

theorem linsert_append_le (x v : Iv) (B : List Iv) (hv : v.start ≤ x.start) :
    ∀ A : List Iv, (∀ a ∈ A, a.start ≤ x.start) →
      linsert x (A ++ v :: B) = A ++ v :: linsert x B := by
  intro A
  induction A with
  | nil => intro _; simp [linsert, hv]
  | cons a A ih =>
    intro hA
    have ha : a.start ≤ x.start := hA a (List.mem_cons_self a A)
    have hrest := ih (fun b hb => hA b (List.mem_cons_of_mem a hb))
    simp [linsert, ha, hrest]

theorem inOrder_insTree (x : Iv) :
    ∀ t : RBT, List.Pairwise leStart (inOrder t) →
      inOrder (insTree x t) = linsert x (inOrder t) := by
  intro t
  induction t with
  | nil => intro _; rfl
  | node c l v m r ihl ihr =>
    intro hs
    rw [inOrder] at hs
    obtain ⟨hl, hvr, hcross⟩ := List.pairwise_append.mp hs
    rw [insTree]
    cases hcmp : comparator x v with
    | left =>
      have hlt : x.start < v.start := by
        by_contra hge
        simp [comparator, hge] at hcmp
      rw [inOrder, inOrder, ihl hl,
        linsert_append_gt x v (inOrder r) (by omega)]
    | right =>
      have hge : v.start ≤ x.start := by
        by_contra hlt
        simp [comparator, lt_of_not_le hlt] at hcmp
      have hvr' : List.Pairwise leStart (inOrder r) :=
        (List.pairwise_cons.mp hvr).2
      rw [inOrder, inOrder, ihr hvr',
        linsert_append_le x v (inOrder r) hge (inOrder l)
          (fun a ha => le_trans (hcross a ha v (List.mem_cons_self v _)) hge)]

theorem insert_spec {t : RBT} {n : Nat} (x : Iv) (hb : Bal t false n)
    (hs : List.Pairwise leStart (inOrder t)) :
    ∃ t₁ n₁, insert t x = some t₁ ∧ Bal t₁ false n₁ ∧
      inOrder t₁ = linsert x (inOrder t) := by
  obtain ⟨t₁, n₁, he, hbal⟩ := insert_bal x hb
  refine ⟨t₁, n₁, he, hbal, ?_⟩
  have h1 := fixup_inOrder (descend x t []) (newLeaf x) t₁ he
  rw [h1, descend_plug]
  exact inOrder_insTree x t hs

theorem mem_linsert (a x : Iv) :
    ∀ l : List Iv, a ∈ linsert x l ↔ a = x ∨ a ∈ l := by
  intro l
  induction l with
  | nil => simp [linsert]
  | cons y l ih =>
    by_cases hy : y.start ≤ x.start
    · simp only [linsert, if_pos hy, List.mem_cons, ih]
      tauto
    · simp only [linsert, if_neg hy, List.mem_cons]

theorem linsert_sorted (x : Iv) :
    ∀ l : List Iv, List.Pairwise leStart l →
      List.Pairwise leStart (linsert x l) := by
  intro l
  induction l with
  | nil => intro _; simp [linsert, List.pairwise_singleton]
  | cons y l ih =>
    intro hs
    obtain ⟨hy, hl⟩ := List.pairwise_cons.mp hs
    by_cases hc : y.start ≤ x.start
    · rw [linsert, if_pos hc]
      refine List.pairwise_cons.mpr ⟨?_, ih hl⟩
      intro b hb
      rcases (mem_linsert b x l).mp hb with rfl | hbl
      · exact hc
      · exact hy b hbl
    · rw [linsert, if_neg hc]
      have hx : x.start ≤ y.start := le_of_not_le hc
      refine List.pairwise_cons.mpr ⟨?_, hs⟩
      intro b hb
      rcases List.mem_cons.mp hb with rfl | hbl
      · exact hx
      · exact le_trans hx (hy b hbl)

theorem linsert_filter (x : Iv) (s : Int) :
    ∀ l : List Iv, List.Pairwise leStart l →
      (linsert x l).filter (fun e => decide (e.start = s)) =
        l.filter (fun e => decide (e.start = s)) ++
          (if x.start = s then [x] else []) := by
  intro l
  induction l with
  | nil => intro _; by_cases hx : x.start = s <;> simp [linsert, List.filter, hx]
  | cons y l ih =>
    intro hs
    obtain ⟨hy, hl⟩ := List.pairwise_cons.mp hs
    by_cases hc : y.start ≤ x.start
    · rw [linsert, if_pos hc]
      by_cases hys : y.start = s <;>
        simp [List.filter_cons, hys, ih hl, List.append_assoc]
    · rw [linsert, if_neg hc]
      have hx : x.start < y.start := lt_of_not_le hc
      by_cases hxs : x.start = s
      · have hnil : (y :: l).filter (fun e => decide (e.start = s)) = [] := by
          apply List.filter_eq_nil_iff.mpr
          intro b hb
          rcases List.mem_cons.mp hb with rfl | hbl
          · simp; omega
          · have := hy b hbl
            simp only [leStart] at this
            simp; omega
        simp [List.filter_cons, hxs, hnil]
      · simp [List.filter_cons, hxs]

theorem length_linsert (x : Iv) :
    ∀ l : List Iv, (linsert x l).length = l.length + 1 := by
  intro l
  induction l with
  | nil => rfl
  | cons y l ih =>
    by_cases hy : y.start ≤ x.start <;> simp [linsert, hy, ih]

theorem foldl_insert_spec :
    ∀ (evs : List Iv) (t : RBT) (n : Nat),
      Bal t false n → List.Pairwise leStart (inOrder t) →
      ∃ t₁ n₁, List.foldlM insert t evs = some t₁ ∧ Bal t₁ false n₁ ∧
        List.Pairwise leStart (inOrder t₁) ∧
        (∀ s : Int, (inOrder t₁).filter (fun e => decide (e.start = s)) =
          (inOrder t).filter (fun e => decide (e.start = s)) ++
            evs.filter (fun e => decide (e.start = s))) ∧
        (inOrder t₁).length = (inOrder t).length + evs.length := by
  intro evs
  induction evs with
  | nil =>
    intro t n hb hs
    exact ⟨t, n, rfl, hb, hs, fun s => by simp, by simp⟩
  | cons x evs ih =>
    intro t n hb hs
    obtain ⟨t', n', he, hb', hord⟩ := insert_spec x hb hs
    have hs' : List.Pairwise leStart (inOrder t') := by
      rw [hord]; exact linsert_sorted x _ hs
    obtain ⟨t₁, n₁, he₁, hb₁, hs₁, hf₁, hlen₁⟩ := ih t' n' hb' hs'
    refine ⟨t₁, n₁, ?_, hb₁, hs₁, ?_, ?_⟩
    · rw [List.foldlM_cons, he]
      exact he₁
    · intro s
      rw [hf₁ s, hord, linsert_filter x s _ hs, List.filter_cons]
      by_cases hxs : x.start = s <;> simp [hxs, List.append_assoc]
    · rw [hlen₁, hord, length_linsert]
      simp
      omega

theorem build_spec (evs : List Iv) :
    ∃ t n, build evs = some t ∧ Bal t false n ∧
      List.Pairwise leStart (inOrder t) ∧
      (∀ s : Int, (inOrder t).filter (fun e => decide (e.start = s)) =
        evs.filter (fun e => decide (e.start = s))) ∧
      (inOrder t).length = evs.length ∧
      (∀ e : Iv, e ∈ inOrder t ↔ e ∈ evs) := by
  obtain ⟨t, n, he, hb, hs, hf, hlen⟩ :=
    foldl_insert_spec evs .nil 0 .nil (by simp [inOrder])
  refine ⟨t, n, he, hb, hs, ?_, by simpa [inOrder] using hlen, ?_⟩
  · intro s
    simpa [inOrder] using hf s
  · intro e
    have hfe := hf e.start
    rw [show inOrder RBT.nil = [] from rfl] at hfe
    simp only [List.filter_nil, List.nil_append] at hfe
    constructor
    · intro hmem
      have h1 : e ∈ (inOrder t).filter (fun a => decide (a.start = e.start)) :=
        List.mem_filter.mpr ⟨hmem, by simp⟩
      rw [hfe] at h1
      exact (List.mem_filter.mp h1).1
    · intro hmem
      have h1 : e ∈ evs.filter (fun a => decide (a.start = e.start)) :=
        List.mem_filter.mpr ⟨hmem, by simp⟩
      rw [← hfe] at h1
      exact (List.mem_filter.mp h1).1

/-! ### Theorems: the `minimum`/`successor` walk emits the in-order sequence -/

theorem size_eq_length : ∀ t : RBT, size t = (inOrder t).length := by
  intro t
  induction t with
  | nil => rfl
  | node c l v m r ihl ihr => simp [size, inOrder, ihl, ihr]; omega

theorem minZip_seq : ∀ (u : RBT) (q : List Frame), u ≠ .nil →
    ∃ z, minZip u q = some z ∧ z.1 ≠ .nil ∧ seqFrom z = inOrder u ++ upA q := by
  intro u
  induction u with
  | nil => intro q h; exact absurd rfl h
  | node c l v m r ihl _ =>
    intro q _
    cases l with
    | nil =>
      refine ⟨(.node c .nil v m r, q), rfl, by simp, ?_⟩
      simp [seqFrom, inOrder]
    | node lc ll lv lm lr =>
      obtain ⟨z, hz, hz1, hseq⟩ := ihl (⟨c, v, m, r, .left⟩ :: q) (by simp)
      refine ⟨z, hz, hz1, ?_⟩
      rw [hseq]
      simp [upA, inOrder, List.append_assoc]

theorem climbR_seq : ∀ (p : List Frame) (t : RBT),
    (climbR t p = none ∧ upA p = []) ∨
    (∃ z, climbR t p = some z ∧ z.1 ≠ .nil ∧ seqFrom z = upA p) := by
  intro p
  induction p with
  | nil => intro t; exact Or.inl ⟨rfl, rfl⟩
  | cons f p ih =>
    intro t
    obtain ⟨c, v, m, sib, d⟩ := f
    cases d with
    | right =>
      rcases ih (plugF t ⟨c, v, m, sib, .right⟩) with ⟨hn, he⟩ | ⟨z, hz, hz1, hseq⟩
      · exact Or.inl ⟨hn, he⟩
      · exact Or.inr ⟨z, hz, hz1, hseq⟩
    | left =>
      refine Or.inr ⟨(plugF t ⟨c, v, m, sib, .left⟩, p), rfl, by simp [plugF], ?_⟩
      simp [plugF, seqFrom, upA]

theorem succZip_seq (c : Bool) (l : RBT) (v : Iv) (m : Int) (r : RBT) (p : List Frame) :
    (succZip (.node c l v m r, p) = none ∧ inOrder r ++ upA p = []) ∨
    (∃ z, succZip (.node c l v m r, p) = some z ∧ z.1 ≠ .nil ∧
      seqFrom z = inOrder r ++ upA p) := by
  cases r with
  | nil =>
    rcases climbR_seq p (.node c l v m .nil) with ⟨hn, he⟩ | ⟨z, hz, hz1, hseq⟩
    · exact Or.inl ⟨hn, by simp [inOrder, he]⟩
    · exact Or.inr ⟨z, hz, hz1, by simp [inOrder, hseq]⟩
  | node rc rl rv rm rr =>
    obtain ⟨z, hz, hz1, hseq⟩ :=
      minZip_seq (.node rc rl rv rm rr) (⟨c, v, m, l, .right⟩ :: p) (by simp)
    refine Or.inr ⟨z, hz, hz1, ?_⟩
    rw [hseq]
    simp [upA]

theorem walkS_seq : ∀ (n : Nat) (z : Zip), z.1 ≠ .nil → (seqFrom z).length = n →
    walkS n z = seqFrom z := by
  intro n
  induction n with
  | zero =>
    intro z hz hlen
    obtain ⟨t, p⟩ := z
    cases t with
    | nil => exact absurd rfl hz
    | node c l v m r => simp [seqFrom] at hlen
  | succ k ih =>
    intro z hz hlen
    obtain ⟨t, p⟩ := z
    cases t with
    | nil => exact absurd rfl hz
    | node c l v m r =>
      have hlen' : (inOrder r ++ upA p).length = k := by
        simp only [seqFrom, List.length_cons] at hlen
        omega
      rcases succZip_seq c l v m r p with ⟨hn, he⟩ | ⟨z2, hz2, hz21, hseq2⟩
      · simp only [walkS, hn, seqFrom, he]
      · have hred : walkS (k + 1) (RBT.node c l v m r, p) = v :: walkS k z2 := by
          simp only [walkS, hz2]
        rw [hred, ih z2 hz21 (by rw [hseq2]; exact hlen'), hseq2, seqFrom]

theorem getOrderedData_eq (t : RBT) (ht : t ≠ .nil) :
    getOrderedData t = some (inOrder t) := by
  obtain ⟨z, hz, hz1, hseq⟩ := minZip_seq t [] ht
  simp only [upA, List.append_nil] at hseq
  have hlen : (seqFrom z).length = size t := by
    rw [hseq, size_eq_length]
  show getOrderedDataFrom t none = some (inOrder t)
  rw [getOrderedDataFrom]
  simp only [hz]
  rw [walkS_seq (size t) z hz1 hlen, hseq]

theorem getOrderedData_nil : getOrderedData .nil = none := rfl

/-! ### Theorems: pruned search returns a sublist of the in-order sequence -/

theorem searchGo_sublist (q : Iv) :
    ∀ t : RBT, List.Sublist (searchGo q t) (inOrder t) := by
  intro t
  induction t with
  | nil => simp [searchGo, inOrder]
  | node c l v m r ihl ihr =>
    have hA : List.Sublist
        (if l ≠ .nil ∧ mOf l ≥ q.start then searchGo q l else []) (inOrder l) := by
      split
      · exact ihl
      · exact List.nil_sublist _
    have hB : List.Sublist (if isColliding v q then [v] else []) [v] := by
      split
      · exact List.Sublist.refl _
      · exact List.nil_sublist _
    have hC : List.Sublist
        (if r ≠ .nil ∧ v.start ≤ q.stop then searchGo q r else []) (inOrder r) := by
      split
      · exact ihr
      · exact List.nil_sublist _
    have : List.Sublist
        ((if l ≠ .nil ∧ mOf l ≥ q.start then searchGo q l else []) ++
          ((if isColliding v q then [v] else []) ++
            (if r ≠ .nil ∧ v.start ≤ q.stop then searchGo q r else [])))
        (inOrder l ++ ([v] ++ inOrder r)) :=
      List.Sublist.append hA (List.Sublist.append hB hC)
    simpa [searchGo, inOrder, List.append_assoc] using this

theorem searchGo_mem (q : Iv) (t : RBT) :
    ∀ a ∈ searchGo q t, a ∈ inOrder t :=
  fun _ ha => (searchGo_sublist q t).subset ha

/-! ### Theorems: the layout's bins keep interior-disjoint events -/

theorem renderLoop_nil (t : RBT)
    (deep : List Iv → List Int → List Bin →
      Option (List (List Bin) × List Int × List Bin))
    (rend : List Int) (bins : List Bin) :
    renderLoop t deep [] rend bins = some ([], rend, bins) := rfl

theorem renderLoop_cons_skip (t : RBT)
    (deep : List Iv → List Int → List Bin →
      Option (List (List Bin) × List Int × List Bin))
    (e : Iv) (rest : List Iv) (rend : List Int) (bins : List Bin)
    (h : e.id ∈ rend) :
    renderLoop t deep (e :: rest) rend bins = renderLoop t deep rest rend bins := by
  simp [renderLoop, h]

theorem renderLoop_cons_go (t : RBT)
    (deep : List Iv → List Int → List Bin →
      Option (List (List Bin) × List Int × List Bin))
    (e : Iv) (rest : List Iv) (rend : List Int) (bins : List Bin)
    (h : e.id ∉ rend) :
    renderLoop t deep (e :: rest) rend bins =
      match deep (searchGo e t) (e.id :: rend) (addToBin e bins) with
      | none => none
      | some (bs, rend2, bins2) =>
        match renderLoop t deep rest rend2 bins2 with
        | none => none
        | some (bs2, rend3, bins3) => some (bs ++ [bins2] ++ bs2, rend3, bins3) := by
  simp [renderLoop, h]

theorem renderTopGo_nil (t : RBT)
    (deep : List Iv → List Int → List Bin →
      Option (List (List Bin) × List Int × List Bin))
    (rend : List Int) :
    renderTopGo t deep [] rend = some ([], rend) := rfl

theorem renderTopGo_cons_skip (t : RBT)
    (deep : List Iv → List Int → List Bin →
      Option (List (List Bin) × List Int × List Bin))
    (e : Iv) (rest : List Iv) (rend : List Int) (h : e.id ∈ rend) :
    renderTopGo t deep (e :: rest) rend = renderTopGo t deep rest rend := by
  simp [renderTopGo, h]

theorem renderTopGo_cons_go (t : RBT)
    (deep : List Iv → List Int → List Bin →
      Option (List (List Bin) × List Int × List Bin))
    (e : Iv) (rest : List Iv) (rend : List Int) (h : e.id ∉ rend) :
    renderTopGo t deep (e :: rest) rend =
      match deep (searchGo e t) (e.id :: rend) (addToBin e []) with
      | none => none
      | some (bs, rend2, bins2) =>
        match renderTopGo t deep rest rend2 with
        | none => none
        | some (bs2, rend3) => some (bs ++ [bins2] ++ bs2, rend3) := by
  simp [renderTopGo, h]

theorem addToBin_OK (dom : List Iv) (e : Iv) (he : e ∈ dom) (hwf : e.start < e.stop) :
    ∀ bins : List Bin, BinsOK dom bins → BinsOK dom (addToBin e bins) := by
  intro bins
  induction bins with
  | nil =>
    intro _ b hb
    rw [addToBin] at hb
    rcases List.mem_singleton.mp hb with rfl
    refine ⟨⟨List.pairwise_singleton _ _, ?_⟩, ?_⟩
    · intro a ha
      rcases List.mem_singleton.mp ha with rfl
      exact le_refl _
    · intro a ha
      rcases List.mem_singleton.mp ha with rfl
      exact he
  | cons b bs ih =>
    intro hOK
    rw [addToBin]
    by_cases hc : e.start ≥ b.max
    · rw [if_pos hc]
      intro b' hb'
      rcases List.mem_cons.mp hb' with rfl | hmem
      · obtain ⟨⟨hpw, hbound⟩, hdom⟩ := hOK b (List.mem_cons_self b bs)
        refine ⟨⟨?_, ?_⟩, ?_⟩
        · rw [List.pairwise_append]
          refine ⟨hpw, List.pairwise_singleton _ _, ?_⟩
          intro a ha b'' hb''
          rcases List.mem_singleton.mp hb'' with rfl
          exact le_trans (hbound a ha) hc
        · intro a ha
          rcases List.mem_append.mp ha with ha' | ha'
          · exact le_trans (hbound a ha') (le_trans hc (le_of_lt hwf))
          · rcases List.mem_singleton.mp ha' with rfl
            exact le_refl _
        · intro a ha
          rcases List.mem_append.mp ha with ha' | ha'
          · exact hdom a ha'
          · rcases List.mem_singleton.mp ha' with rfl
            exact he
      · exact hOK b' (List.mem_cons_of_mem b hmem)
    · rw [if_neg hc]
      intro b' hb'
      rcases List.mem_cons.mp hb' with rfl | hmem
      · exact hOK b' (List.mem_cons_self b' bs)
      · exact ih (fun b'' hb'' => hOK b'' (List.mem_cons_of_mem b hb'')) b' hmem

theorem renderLoop_OK (t : RBT) (hwf : ∀ e ∈ inOrder t, e.start < e.stop)
    (deep : List Iv → List Int → List Bin →
      Option (List (List Bin) × List Int × List Bin))
    (hdeep : ∀ (events : List Iv) (rend : List Int) (bins : List Bin)
      (res : List (List Bin) × List Int × List Bin),
      (∀ e ∈ events, e ∈ inOrder t) → BinsOK (inOrder t) bins →
      deep events rend bins = some res →
      (∀ batch ∈ res.1, BinsOK (inOrder t) batch) ∧ BinsOK (inOrder t) res.2.2) :
    ∀ (events : List Iv) (rend : List Int) (bins : List Bin)
      (res : List (List Bin) × List Int × List Bin),
      (∀ e ∈ events, e ∈ inOrder t) → BinsOK (inOrder t) bins →
      renderLoop t deep events rend bins = some res →
      (∀ batch ∈ res.1, BinsOK (inOrder t) batch) ∧ BinsOK (inOrder t) res.2.2 := by
  intro events
  induction events with
  | nil =>
    intro rend bins res _ hOK h
    rw [renderLoop_nil] at h
    cases h
    exact ⟨by simp, hOK⟩
  | cons e rest ih =>
    intro rend bins res hev hOK h
    by_cases hm : e.id ∈ rend
    · rw [renderLoop_cons_skip t deep e rest rend bins hm] at h
      exact ih rend bins res (fun a ha => hev a (List.mem_cons_of_mem e ha)) hOK h
    · rw [renderLoop_cons_go t deep e rest rend bins hm] at h
      cases h1 : deep (searchGo e t) (e.id :: rend) (addToBin e bins) with
      | none => rw [h1] at h; cases h
      | some trip =>
        obtain ⟨bs, rend2, bins2⟩ := trip
        rw [h1] at h
        dsimp only at h
        have hOK1 : BinsOK (inOrder t) (addToBin e bins) :=
          addToBin_OK (inOrder t) e (hev e (List.mem_cons_self e rest))
            (hwf e (hev e (List.mem_cons_self e rest))) bins hOK
        obtain ⟨hb1, hbins2⟩ :=
          hdeep (searchGo e t) (e.id :: rend) (addToBin e bins) (bs, rend2, bins2)
            (searchGo_mem e t) hOK1 h1
        cases h2 : renderLoop t deep rest rend2 bins2 with
        | none => rw [h2] at h; cases h
        | some trip2 =>
          obtain ⟨bs2, rend3, bins3⟩ := trip2
          rw [h2] at h
          dsimp only at h
          cases h
          obtain ⟨hb2, hbins3⟩ :=
            ih rend2 bins2 (bs2, rend3, bins3)
              (fun a ha => hev a (List.mem_cons_of_mem e ha)) hbins2 h2
          refine ⟨?_, hbins3⟩
          intro batch hbatch
          rcases List.mem_append.mp hbatch with hbatch' | hbatch'
          · rcases List.mem_append.mp hbatch' with hb | hb
            · exact hb1 batch hb
            · rcases List.mem_singleton.mp hb with rfl
              exact hbins2
          · exact hb2 batch hbatch'

theorem renderRec_OK (t : RBT) (hwf : ∀ e ∈ inOrder t, e.start < e.stop) :
    ∀ (fuel : Nat) (events : List Iv) (rend : List Int) (bins : List Bin)
      (res : List (List Bin) × List Int × List Bin),
      (∀ e ∈ events, e ∈ inOrder t) → BinsOK (inOrder t) bins →
      renderRec t fuel events rend bins = some res →
      (∀ batch ∈ res.1, BinsOK (inOrder t) batch) ∧ BinsOK (inOrder t) res.2.2 := by
  intro fuel
  induction fuel with
  | zero => exact renderLoop_OK t hwf _ (fun _ _ _ _ _ _ h => by cases h)
  | succ fuel1 ih => exact renderLoop_OK t hwf _ ih

theorem renderTopGo_OK (t : RBT) (hwf : ∀ e ∈ inOrder t, e.start < e.stop)
    (deep : List Iv → List Int → List Bin →
      Option (List (List Bin) × List Int × List Bin))
    (hdeep : ∀ (events : List Iv) (rend : List Int) (bins : List Bin)
      (res : List (List Bin) × List Int × List Bin),
      (∀ e ∈ events, e ∈ inOrder t) → BinsOK (inOrder t) bins →
      deep events rend bins = some res →
      (∀ batch ∈ res.1, BinsOK (inOrder t) batch) ∧ BinsOK (inOrder t) res.2.2) :
    ∀ (events : List Iv) (rend : List Int) (res : List (List Bin) × List Int),
      (∀ e ∈ events, e ∈ inOrder t) →
      renderTopGo t deep events rend = some res →
      ∀ batch ∈ res.1, BinsOK (inOrder t) batch := by
  intro events
  induction events with
  | nil =>
    intro rend res _ h
    rw [renderTopGo_nil] at h
    cases h
    simp
  | cons e rest ih =>
    intro rend res hev h
    by_cases hm : e.id ∈ rend
    · rw [renderTopGo_cons_skip t deep e rest rend hm] at h
      exact ih rend res (fun a ha => hev a (List.mem_cons_of_mem e ha)) h
    · rw [renderTopGo_cons_go t deep e rest rend hm] at h
      cases h1 : deep (searchGo e t) (e.id :: rend) (addToBin e []) with
      | none => rw [h1] at h; cases h
      | some trip =>
        obtain ⟨bs, rend2, bins2⟩ := trip
        rw [h1] at h
        dsimp only at h
        have hOK1 : BinsOK (inOrder t) (addToBin e []) :=
          addToBin_OK (inOrder t) e (hev e (List.mem_cons_self e rest))
            (hwf e (hev e (List.mem_cons_self e rest))) []
            (fun b hb => absurd hb (List.not_mem_nil b))
        obtain ⟨hb1, hbins2⟩ :=
          hdeep (searchGo e t) (e.id :: rend) (addToBin e []) (bs, rend2, bins2)
            (searchGo_mem e t) hOK1 h1
        cases h2 : renderTopGo t deep rest rend2 with
        | none => rw [h2] at h; cases h
        | some pair2 =>
          obtain ⟨bs2, rend3⟩ := pair2
          rw [h2] at h
          dsimp only at h
          cases h
          intro batch hbatch
          rcases List.mem_append.mp hbatch with hbatch' | hbatch'
          · rcases List.mem_append.mp hbatch' with hb | hb
            · exact hb1 batch hb
            · rcases List.mem_singleton.mp hb with rfl
              exact hbins2
          · exact ih rend2 (bs2, rend3)
              (fun a ha => hev a (List.mem_cons_of_mem e ha)) h2 batch hbatch'

theorem renderTop_OK (t : RBT) (hwf : ∀ e ∈ inOrder t, e.start < e.stop) :
    ∀ (fuel : Nat) (events : List Iv) (rend : List Int)
      (res : List (List Bin) × List Int),
      (∀ e ∈ events, e ∈ inOrder t) →
      renderTop t fuel events rend = some res →
      ∀ batch ∈ res.1, BinsOK (inOrder t) batch := by
  intro fuel
  cases fuel with
  | zero => exact renderTopGo_OK t hwf _ (fun _ _ _ _ _ _ h => by cases h)
  | succ fuel1 => exact renderTopGo_OK t hwf _ (renderRec_OK t hwf fuel1)

theorem mem_renderEventsW (w : ℚ) (bins : List Bin) (em : Emit)
    (h : em ∈ renderEventsW w bins) :
    ∃ bin, bins[em.level]? = some bin ∧ em.ev ∈ bin.events ∧
      em.count = bins.length ∧
      em.geo = eventRender em.ev (w / (bins.length : ℚ)) em.level := by
  rw [renderEventsW] at h
  rw [List.mem_flatten] at h
  obtain ⟨batchpart, hpart, hmem⟩ := h
  rw [List.mem_map] at hpart
  obtain ⟨lv, hlv, rfl⟩ := hpart
  rw [List.mem_map] at hmem
  obtain ⟨e, he, rfl⟩ := hmem
  refine ⟨lv.2, ?_, he, rfl, rfl⟩
  have := List.mk_mem_enum_iff_getElem?.mp (by simpa using hlv)
  simpa using this

theorem pairwise_mem_or {R : Iv → Iv → Prop} :
    ∀ l : List Iv, l.Pairwise R → ∀ a ∈ l, ∀ b ∈ l, a = b ∨ R a b ∨ R b a := by
  intro l
  induction l with
  | nil => intro _ a ha; cases ha
  | cons y l ih =>
    intro hp a ha b hb
    obtain ⟨hy, hl⟩ := List.pairwise_cons.mp hp
    rcases List.mem_cons.mp ha with rfl | ha' <;>
      rcases List.mem_cons.mp hb with rfl | hb'
    · exact Or.inl rfl
    · exact Or.inr (Or.inl (hy b hb'))
    · exact Or.inr (Or.inr (hy a ha'))
    · exact ih hl a ha' b hb'

/-! ### The claims -/

/-- C1: for every finite sequence of intervals inserted via `Tree.insert` into
an initially empty tree, after every insertion (i.e. for every number `k` of
already-performed insertions) the tree satisfies the red-black invariants: the
root is BLACK, no RED node has a RED child, and every downward path from the
root to an absent-child position passes through the same number of BLACK
nodes.  (The statement needs no well-formedness of the intervals; it holds
for arbitrary data.) -/
theorem C1_rb_invariants (evs : List Iv) (k : Nat) :
    ∃ t : RBT, build (evs.take k) = some t ∧ colorOf t = false ∧ noRedRed t ∧
      ∀ x ∈ blackCounts t, ∀ y ∈ blackCounts t, x = y := by
  obtain ⟨t, n, he, hb, _⟩ := build_spec (evs.take k)
  exact ⟨t, he, hb.colorOf_eq, hb.toNoRedRed,
    fun x hx y hy => (hb.blackCounts_eq x hx).trans (hb.blackCounts_eq y hy).symm⟩

/-- C2 (code bug): after inserting `{id 1, [0,10]}` and then `{id 2, [5,20]}`
the augmentation invariant fails — `insert` never recomputes the `_max` field
of any ancestor of the new leaf, so the root keeps its stale cached maximum 10
although its subtree now holds an interval ending at 20. -/
theorem C2_max_cache_bug :
    (build [⟨1, 0, 10⟩, ⟨2, 5, 20⟩]).map maxOkB = some false := by decide

/-- C3 (code bug): with the five inserts below (which leave node `{id 2}` with
the stale cached max 60 while its subtree holds `{id 5, [55,500]}`),
`searchInterval` for `[200,300]` prunes the left subtree and returns no
interval at all, while the brute-force scan with the §4.6 predicate finds
`{id 5}` — a false negative, so the returned set is not the brute-force
set. -/
theorem C3_search_false_negative :
    ((build [⟨1, 100, 110⟩, ⟨2, 50, 60⟩, ⟨3, 150, 160⟩, ⟨4, 40, 45⟩,
        ⟨5, 55, 500⟩]).map (fun t => searchIntervalT ⟨0, 200, 300⟩ t))
      = some (some []) ∧
    bruteOverlaps [⟨1, 100, 110⟩, ⟨2, 50, 60⟩, ⟨3, 150, 160⟩, ⟨4, 40, 45⟩,
        ⟨5, 55, 500⟩] ⟨0, 200, 300⟩ = [⟨5, 55, 500⟩] := by decide

/-- Relating the geometry-free `columnIndex` reading of a batch to the full
emission records: `evLevels` is exactly `(ev, level)` over `renderEventsW`. -/
theorem evLevels_eq_emits (w : ℚ) (batch : List Bin) :
    evLevels batch = (renderEventsW w batch).map (fun em => (em.ev, em.level)) := by
  rw [evLevels, renderEventsW, List.map_flatten, List.map_map]
  congr 1
  apply List.map_congr_left
  intro lv _
  rw [Function.comp_apply, List.map_map]
  rfl

/-- C4 counterexample: the events `[0,10]` and `[10,20]` touch, so they
overlap under the closed §4.6 predicate, yet `_addToBin`'s `start >= max`
test puts both into bin 0 of the same bins list — the same `columnIndex`.
Both directions of the claimed property fail on this input. -/
theorem C4_touching_events_share_column :
    ¬ claimColumnValidity [⟨1, 0, 10⟩, ⟨2, 10, 20⟩] := by
  intro h
  have hP := h ((layOutD [⟨1, 0, 10⟩, ⟨2, 10, 20⟩]).getD []) (by decide)
    (((layOutD [⟨1, 0, 10⟩, ⟨2, 10, 20⟩]).getD []).getD 0 []) (by decide)
  have hpair := hP
    ((evLevels (((layOutD [⟨1, 0, 10⟩, ⟨2, 10, 20⟩]).getD []).getD 0 [])).getD 0 (⟨0, 0, 0⟩, 0))
    (by decide)
    ((evLevels (((layOutD [⟨1, 0, 10⟩, ⟨2, 10, 20⟩]).getD []).getD 0 [])).getD 1 (⟨0, 0, 0⟩, 0))
    (by decide) (by decide)
  exact absurd (hpair.1 (by decide)) (by decide)

/-- C4 amended: within one emission batch (one shared bins list), two records
with the same `columnIndex` either belong to the same event or their
intervals' interiors are disjoint (`earlier.end ≤ later.start`); touching
endpoints may share a column even though §4.6 counts them as overlapping, and
consequently only events that properly overlap (`A.start < B.end` and
`B.start < A.end`) are guaranteed different `columnIndex` values, and only
within one batch — separately discovered clusters restart at column 0. -/
theorem C4_same_bin_interior_disjoint (evs : List Iv) (r : List (List Bin)) (w : ℚ)
    (hwf : ∀ e ∈ evs, e.start < e.stop) (hr : layOutD evs = some r) :
    ∀ batch ∈ r, ∀ e1 ∈ renderEventsW w batch, ∀ e2 ∈ renderEventsW w batch,
      e1.level = e2.level →
      e1.ev = e2.ev ∨ e1.ev.stop ≤ e2.ev.start ∨ e2.ev.stop ≤ e1.ev.start := by
  rw [layOutD] at hr
  cases hb : build evs with
  | none => rw [hb] at hr; cases hr
  | some t =>
    rw [hb] at hr
    dsimp only at hr
    cases ho : getOrderedData t with
    | none => rw [ho] at hr; cases hr
    | some ordered =>
      rw [ho] at hr
      dsimp only at hr
      cases htop : renderTop t (evs.length + 1) ordered [] with
      | none => rw [htop] at hr; cases hr
      | some pair =>
        obtain ⟨bs, rend⟩ := pair
        rw [htop] at hr
        dsimp only at hr
        injection hr with hbr
        subst hbr
        -- facts about the tree
        obtain ⟨t', n, he, _, _, _, _, hmem⟩ := build_spec evs
        rw [hb] at he
        cases he
        have hwft : ∀ e ∈ inOrder t, e.start < e.stop :=
          fun e hx => hwf e ((hmem e).mp hx)
        have ht : t ≠ .nil := by
          intro hnil
          subst hnil
          rw [getOrderedData_nil] at ho
          cases ho
        have hoeq : ordered = inOrder t := by
          rw [getOrderedData_eq t ht] at ho
          cases ho
          rfl
        have hbatches := renderTop_OK t hwft (evs.length + 1) ordered [] (bs, rend)
          (by intro a ha; rw [hoeq] at ha; exact ha) htop
        intro batch hbatch e1 he1 e2 he2 hlev
        have hOK : BinsOK (inOrder t) batch := hbatches batch hbatch
        obtain ⟨bin1, hg1, hm1, _, _⟩ := mem_renderEventsW w batch e1 he1
        obtain ⟨bin2, hg2, hm2, _, _⟩ := mem_renderEventsW w batch e2 he2
        rw [hlev] at hg1
        rw [hg1] at hg2
        cases hg2
        have hbin : bin1 ∈ batch := by
          have := List.getElem?_eq_some_iff.mp hg1
          obtain ⟨hlt, hget⟩ := this
          exact hget ▸ List.getElem_mem hlt
        obtain ⟨⟨hpw, _⟩, _⟩ := hOK bin1 hbin
        rcases pairwise_mem_or bin1.events hpw e1.ev hm1 e2.ev hm2 with h | h | h
        · exact Or.inl h
        · exact Or.inr (Or.inl h)
        · exact Or.inr (Or.inr h)

/-- Closed witness for the amended C4 at a concrete input. -/
theorem C4_same_bin_interior_disjoint_wit :
    (∀ e ∈ [(⟨1, 0, 10⟩ : Iv), ⟨2, 10, 20⟩], e.start < e.stop) ∧
    layOutD [(⟨1, 0, 10⟩ : Iv), ⟨2, 10, 20⟩]
      = some ((layOutD [(⟨1, 0, 10⟩ : Iv), ⟨2, 10, 20⟩]).getD []) ∧
    (∀ batch ∈ (layOutD [(⟨1, 0, 10⟩ : Iv), ⟨2, 10, 20⟩]).getD [],
      ∀ e1 ∈ renderEventsW 600 batch, ∀ e2 ∈ renderEventsW 600 batch,
        e1.level = e2.level →
        e1.ev = e2.ev ∨ e1.ev.stop ≤ e2.ev.start ∨ e2.ev.stop ≤ e1.ev.start) :=
  ⟨by decide, by decide,
    C4_same_bin_interior_disjoint [⟨1, 0, 10⟩, ⟨2, 10, 20⟩]
      ((layOutD [(⟨1, 0, 10⟩ : Iv), ⟨2, 10, 20⟩]).getD []) 600
      (by decide) (by decide)⟩

/-- C5: for every sequence of inserted events, `getOrderedData` returns a
sequence that is non-decreasing by `start`, and for every start value the
subsequence of events with that start appears exactly in insertion order
(ties are routed RIGHT during the BST descent, making insertion stable). -/
theorem C5_ordered_data (evs : List Iv) (t : RBT) (out : List Iv)
    (hb : build evs = some t) (ho : getOrderedData t = some out) :
    List.Pairwise leStart out ∧
      ∀ s : Int, out.filter (fun e => decide (e.start = s)) =
        evs.filter (fun e => decide (e.start = s)) := by
  obtain ⟨t', n, he, _, hs, hf, _, _⟩ := build_spec evs
  rw [hb] at he
  cases he
  have ht : t ≠ .nil := by
    intro hnil
    subst hnil
    rw [getOrderedData_nil] at ho
    cases ho
  rw [getOrderedData_eq t ht] at ho
  cases ho
  exact ⟨hs, hf⟩

/-- Closed witness for C5: the two equal-start events of the repository's
`testTreeInsert` scenario come back in insertion order. -/
theorem C5_ordered_data_wit :
    build [(⟨1, 20, 100⟩ : Iv), ⟨2, 20, 100⟩]
      = some (.node false .nil ⟨1, 20, 100⟩ 100 (.node true .nil ⟨2, 20, 100⟩ 100 .nil)) ∧
    getOrderedData (.node false .nil ⟨1, 20, 100⟩ 100 (.node true .nil ⟨2, 20, 100⟩ 100 .nil))
      = some [⟨1, 20, 100⟩, ⟨2, 20, 100⟩] ∧
    (List.Pairwise leStart [(⟨1, 20, 100⟩ : Iv), ⟨2, 20, 100⟩] ∧
      ∀ s : Int, [(⟨1, 20, 100⟩ : Iv), ⟨2, 20, 100⟩].filter (fun e => decide (e.start = s)) =
        [(⟨1, 20, 100⟩ : Iv), ⟨2, 20, 100⟩].filter (fun e => decide (e.start = s))) :=
  ⟨by decide, by decide,
    C5_ordered_data [⟨1, 20, 100⟩, ⟨2, 20, 100⟩]
      (.node false .nil ⟨1, 20, 100⟩ 100 (.node true .nil ⟨2, 20, 100⟩ 100 .nil))
      [⟨1, 20, 100⟩, ⟨2, 20, 100⟩] (by decide) (by decide)⟩

/-- C6 counterexample: `Event.prototype.render` computes
`left = level * width + 10`, not `columnIndex * width`: a single laid-out
event sits in column 0 yet gets `left = 10`, not `0`. -/
theorem C6_left_offset :
    ¬ claimLeftFormula 600 [⟨1, 20, 100⟩] := by
  intro h
  have hD : layOutD [(⟨1, 20, 100⟩ : Iv)] = some [[⟨100, [⟨1, 20, 100⟩]⟩]] := by decide
  have hL : layOutEmits 600 [(⟨1, 20, 100⟩ : Iv)]
      = some [⟨⟨1, 20, 100⟩, 0, 1, eventRender ⟨1, 20, 100⟩ (600 / ((1 : ℕ) : ℚ)) 0⟩] := by
    rw [layOutEmits, hD]
    simp [renderEventsW, List.enum]
  have hP := h _ hL ⟨⟨1, 20, 100⟩, 0, 1, eventRender ⟨1, 20, 100⟩ (600 / ((1 : ℕ) : ℚ)) 0⟩
    (List.mem_singleton.mpr rfl)
  rw [eventRender] at hP
  norm_num at hP

/-- C6 amended: every emitted record satisfies `width = totalWidth /
columnCount`, `left = columnIndex * width + 10` (the code adds a fixed 10px
offset the claim omits), `top = start` and `height = end - start`; and the
single event `{id 1, start 20, end 100}` laid out alone is emitted exactly
once with `columnCount 1`, `columnIndex 0`, `width = totalWidth`, `top 20`,
`height 80`. -/
theorem C6_geometry (w : ℚ) (evs : List Iv) (L : List Emit)
    (hL : layOutEmits w evs = some L) :
    (∀ em ∈ L, em.geo.width = w / (em.count : ℚ) ∧
      em.geo.left = (em.level : ℚ) * em.geo.width + 10 ∧
      em.geo.top = (em.ev.start : ℚ) ∧
      em.geo.height = ((em.ev.stop : ℚ) - (em.ev.start : ℚ))) ∧
    ((layOutEmits w [⟨1, 20, 100⟩]).map
        (List.map (fun em => (em.ev, em.level, em.count, em.geo.top, em.geo.height)))
      = some [(⟨1, 20, 100⟩, 0, 1, (20 : ℚ), 80)] ∧
     (layOutEmits w [⟨1, 20, 100⟩]).map (List.map (fun em => em.geo.width))
      = some [w]) := by
  constructor
  · intro em hem
    rw [layOutEmits] at hL
    cases hD : layOutD evs with
    | none => rw [hD] at hL; cases hL
    | some bs =>
      rw [hD, Option.map_some'] at hL
      cases hL
      rw [List.mem_flatten] at hem
      obtain ⟨part, hpart, hmem⟩ := hem
      rw [List.mem_map] at hpart
      obtain ⟨batch, _, rfl⟩ := hpart
      obtain ⟨bin, _, _, hcount, hgeo⟩ := mem_renderEventsW w batch em hmem
      rw [hgeo, hcount]
      refine ⟨rfl, rfl, rfl, ?_⟩
      rw [eventRender]
      push_cast
      ring
  · have hD : layOutD [(⟨1, 20, 100⟩ : Iv)] = some [[⟨100, [⟨1, 20, 100⟩]⟩]] := by decide
    constructor
    · rw [layOutEmits, hD]
      simp [renderEventsW, eventRender, List.enum]
      norm_num
    · rw [layOutEmits, hD]
      simp [renderEventsW, eventRender, List.enum]

/-- Closed witness for the amended C6 at a concrete input. -/
theorem C6_geometry_wit :
    layOutEmits 600 [(⟨1, 20, 100⟩ : Iv)]
      = some [⟨⟨1, 20, 100⟩, 0, 1, eventRender ⟨1, 20, 100⟩ (600 / ((1 : ℕ) : ℚ)) 0⟩] ∧
    (∀ em ∈ [(⟨⟨1, 20, 100⟩, 0, 1, eventRender ⟨1, 20, 100⟩ (600 / ((1 : ℕ) : ℚ)) 0⟩ : Emit)],
      em.geo.width = 600 / (em.count : ℚ) ∧
      em.geo.left = (em.level : ℚ) * em.geo.width + 10 ∧
      em.geo.top = (em.ev.start : ℚ) ∧
      em.geo.height = ((em.ev.stop : ℚ) - (em.ev.start : ℚ))) := by
  have hD : layOutD [(⟨1, 20, 100⟩ : Iv)] = some [[⟨100, [⟨1, 20, 100⟩]⟩]] := by decide
  have hL : layOutEmits 600 [(⟨1, 20, 100⟩ : Iv)]
      = some [⟨⟨1, 20, 100⟩, 0, 1, eventRender ⟨1, 20, 100⟩ (600 / ((1 : ℕ) : ℚ)) 0⟩] := by
    rw [layOutEmits, hD]
    simp [renderEventsW, List.enum]
  exact ⟨hL, (C6_geometry 600 [⟨1, 20, 100⟩] _ hL).1⟩

/-- C7 counterexample: a `Tree.insert` call evaluates to `undefined` — the
function body has no `return` statement — so it does not return the newly
inserted node (only the internal `_insertNode` does). -/
theorem C7_insert_returns_undefined :
    ¬ claimInsertReturnsNode .nil ⟨1, 20, 100⟩ := by
  rw [claimInsertReturnsNode]
  decide

/-- C7 amended: insertion always succeeds and never fails, including for
duplicate keys — after any sequence of inserts the tree exists and holds one
node per insert, and one more insert of any interval succeeds as well,
growing the tree by exactly one node; but the `insert` call itself evaluates
to `undefined` (`none`), not to the inserted node. -/
theorem C7_insert_total (evs : List Iv) :
    ∃ t : RBT, build evs = some t ∧ size t = evs.length ∧
      ∀ x : Iv, ∃ t1, insertCall t x = some (t1, none) ∧ size t1 = size t + 1 := by
  obtain ⟨t, n, he, hbal, hsort, _, hlen, _⟩ := build_spec evs
  refine ⟨t, he, by rw [size_eq_length, hlen], ?_⟩
  intro x
  obtain ⟨t1, n1, hi, _, hord⟩ := insert_spec x hbal hsort
  refine ⟨t1, ?_, ?_⟩
  · rw [insertCall, hi]
    rfl
  · rw [size_eq_length, size_eq_length, hord, length_linsert]

/-- C8: querying or laying out before any events are set is surfaced as an
explicit failure (`none`, the thrown exception), and the visible state is
left unchanged: `minimum`, `getOrderedData`, `getReverseOrderedData` and
`searchInterval` on the empty tree fail without producing a value (they are
read-only), laying out an empty event list fails, and `Calendar.render`
with no events set throws before `clear()` runs, leaving the calendar state
exactly as it was. -/
theorem C8_unset_failures (q : Iv) (s : CalSt) (hs : s.events = none) :
    minimumData .nil = none ∧ getOrderedData .nil = none ∧
    getReverseOrderedDataFrom .nil none = none ∧ searchIntervalT q .nil = none ∧
    layOutD [] = none ∧ (calRender s).1 = none ∧ (calRender s).2 = s := by
  obtain ⟨sev, str, srd⟩ := s
  simp only [CalSt.events] at hs
  subst hs
  exact ⟨rfl, rfl, rfl, rfl, rfl, rfl, rfl⟩

/-- Closed witness for C8 at the freshly constructed calendar state. -/
theorem C8_unset_failures_wit :
    (⟨none, none, []⟩ : CalSt).events = none ∧
    (minimumData .nil = none ∧ getOrderedData .nil = none ∧
      getReverseOrderedDataFrom .nil none = none ∧
      searchIntervalT ⟨0, 10, 30⟩ .nil = none ∧
      layOutD [] = none ∧ (calRender ⟨none, none, []⟩).1 = none ∧
      (calRender ⟨none, none, []⟩).2 = ⟨none, none, []⟩) :=
  ⟨rfl, C8_unset_failures ⟨0, 10, 30⟩ ⟨none, none, []⟩ rfl⟩

/-- C9: `getOrderedData(node)`, `getOrdered(node)` and
`getReverseOrderedData(node)` overwrite their argument with `this.minimum()`
(respectively `this.maximum()`) before walking, so the supplied start node is
ignored: each call returns exactly the sequence of the corresponding
no-argument call, which walks the whole tree from its global minimum
(respectively maximum). -/
theorem C9_start_node_ignored (t : RBT) (z : Zip) :
    getOrderedDataFrom t (some z) = getOrderedDataFrom t none ∧
    getOrderedFrom t (some z) = getOrderedFrom t none ∧
    getReverseOrderedDataFrom t (some z) = getReverseOrderedDataFrom t none :=
  ⟨rfl, rfl, rfl⟩

/-- C10: for every tree built by inserts, the sequence `searchInterval`
returns is non-decreasing by `start` — it is the in-order
left-node-right concatenation of the pruned traversal, hence a sublist of
the sorted in-order sequence. -/
theorem C10_search_sorted (evs : List Iv) (t : RBT) (q : Iv) (out : List Iv)
    (hb : build evs = some t) (hq : searchIntervalT q t = some out) :
    List.Pairwise leStart out := by
  obtain ⟨t', n, he, _, hs, _, _, _⟩ := build_spec evs
  rw [hb] at he
  cases he
  have hout : out = searchGo q t := by
    cases t with
    | nil =>
      rw [show searchIntervalT q RBT.nil = none from rfl] at hq
      cases hq
    | node c l v m r =>
      rw [show searchIntervalT q (RBT.node c l v m r)
          = some (searchGo q (RBT.node c l v m r)) from rfl] at hq
      cases hq
      rfl
  subst hout
  exact hs.sublist (searchGo_sublist q t)

/-- Closed witness for C10 at a concrete input. -/
theorem C10_search_sorted_wit :
    build [(⟨1, 20, 100⟩ : Iv), ⟨2, 40, 150⟩]
      = some (.node false .nil ⟨1, 20, 100⟩ 100 (.node true .nil ⟨2, 40, 150⟩ 150 .nil)) ∧
    searchIntervalT ⟨0, 30, 50⟩
        (.node false .nil ⟨1, 20, 100⟩ 100 (.node true .nil ⟨2, 40, 150⟩ 150 .nil))
      = some [⟨1, 20, 100⟩, ⟨2, 40, 150⟩] ∧
    List.Pairwise leStart [(⟨1, 20, 100⟩ : Iv), ⟨2, 40, 150⟩] :=
  ⟨by decide, by decide,
    C10_search_sorted [⟨1, 20, 100⟩, ⟨2, 40, 150⟩]
      (.node false .nil ⟨1, 20, 100⟩ 100 (.node true .nil ⟨2, 40, 150⟩ 150 .nil))
      ⟨0, 30, 50⟩ [⟨1, 20, 100⟩, ⟨2, 40, 150⟩] (by decide) (by decide)⟩

end FB
